import Mathlib

/-!
Shallow embedding of the visualizer-hook audio analysis core.

Sources:
- src/src/utils/audioProcessor.ts: processAudioData, extractFrequencyBands,
  calculateSpectrumCharacteristics
- src/unnamed/part_002 (beatDetection): BeatDetector, TempoAnalyzer

JavaScript numbers are modelled as rationals (ℚ); the transcendental
operations (Math.pow with fractional exponent, Math.log, Math.sqrt) are
modelled over ℝ at the exact point where the source applies them.
Out-of-range array reads (which yield undefined and poison arithmetic with
NaN in JavaScript) are modelled by a default value of 0; every theorem whose
conclusion depends on an array value is stated under hypotheses keeping the
relevant reads in range, and the claims about out-of-range behaviour are
stated purely about the index arithmetic.
-/

namespace Visualizer

/-- Math.round: rounds half toward positive infinity. -/
def jsRound (q : ℚ) : ℤ := ⌊q + 1/2⌋

/-- Array read at a possibly negative (integer) index; JavaScript yields
undefined out of range, modelled here by the default 0. -/
def jsGetD (l : List ℚ) (i : ℤ) : ℚ :=
  if 0 ≤ i then l.getD i.toNat 0 else 0

/-- AudioData (src/src/types/index.ts): frequencyData and timeData are
Uint8Arrays, bufferLength the analyser bin count; the audioContext field is
represented by its only consumed value, sampleRate. -/
structure AudioData where
  frequencyData : List ℚ
  timeData : List ℚ
  sampleRate : ℚ
  bufferLength : ℕ
  deriving DecidableEq

/-- DataProcessorOptions (defaults: normalize = true, logarithmic = false,
smoothing = 0.5). smoothing is destructured but unused by processAudioData. -/
structure DataProcessorOptions where
  normalize : Bool
  logarithmic : Bool
  smoothing : ℚ
  deriving DecidableEq

def defaultOptions : DataProcessorOptions := ⟨true, false, 1/2⟩

structure DominantInfo where
  frequency : ℚ
  amplitude : ℚ
  index : ℕ
  deriving DecidableEq

structure VisualizerProcessedData where
  frequencyData : List ℚ
  timeData : List ℚ
  volume : ℚ
  peakLevel : ℚ
  isActive : Bool
  dominant : DominantInfo
  deriving DecidableEq

/-- The max-scan loop of processAudioData (audioProcessor.ts lines 25-33):
maxScanAux freq n iterates i = 0 .. n-1 keeping (maxFrequencyValue,
maxFrequencyIndex); a later value replaces the maximum only if strictly
greater, so ties keep the first occurrence. -/
def maxScanAux (freq : List ℚ) : ℕ → ℚ × ℕ
  | 0 => (0, 0)
  | n + 1 =>
    let acc := maxScanAux freq n
    let value := freq.getD n 0
    if acc.1 < value then (value, n) else acc

def maxFrequencyValue (a : AudioData) : ℚ := (maxScanAux a.frequencyData a.bufferLength).1

def maxFrequencyIndex (a : AudioData) : ℕ := (maxScanAux a.frequencyData a.bufferLength).2

/-- processedFrequencyData before the normalization branch: a copy of the
first bufferLength entries of frequencyData. -/
def rawFrequencyList (a : AudioData) : List ℚ :=
  (List.range a.bufferLength).map (fun i => a.frequencyData.getD i 0)

/-- Time-domain loop (lines 44-50): each byte maps to value/128 - 1. -/
def processedTimeList (a : AudioData) : List ℚ :=
  (List.range a.bufferLength).map (fun i => a.timeData.getD i 0 / 128 - 1)

/-- volume = (sum of absolute mapped time values) / bufferLength (line 53). -/
def volumeOf (a : AudioData) : ℚ :=
  ((processedTimeList a).map (fun v => |v|)).sum / a.bufferLength

def nyquistOf (a : AudioData) : ℚ := a.sampleRate / 2

/-- Normalization branch (lines 56-69) with logarithmic = false: when
normalize is requested and maxFrequencyValue > 0, every bin is divided by
maxFrequencyValue; otherwise the raw copy is returned unmodified. -/
def processedFrequencyList (a : AudioData) (opts : DataProcessorOptions) : List ℚ :=
  if opts.normalize = true ∧ 0 < maxFrequencyValue a then
    (rawFrequencyList a).map (fun v => v / maxFrequencyValue a)
  else rawFrequencyList a

/-- processAudioData (audioProcessor.ts lines 6-83), logarithmic scaling
excluded (it is transcendental and modelled separately over ℝ by
processedFrequencyListLog). The source performs no input validation and has
no error path: it is a total function into VisualizerProcessedData. -/
def processAudioData (a : AudioData) (opts : DataProcessorOptions) : VisualizerProcessedData :=
  { frequencyData := processedFrequencyList a opts
    timeData := processedTimeList a
    volume := volumeOf a
    peakLevel := maxFrequencyValue a / 255
    isActive := decide ((1/20 : ℚ) < volumeOf a)
    dominant :=
      { frequency := maxFrequencyIndex a * nyquistOf a / a.bufferLength
        amplitude := maxFrequencyValue a / 255
        index := maxFrequencyIndex a } }

/-- Logarithmic scaling of one (already normalized) bin, lines 61-67:
log(max(v, 0.001) * (10 - 1) + 1) / log(10). -/
noncomputable def logScale (v : ℝ) : ℝ :=
  Real.log (max v (1/1000) * (10 - 1) + 1) / Real.log 10

/-- Frequency output of processAudioData with logarithmic = true: the log
scaling is applied per bin inside the same normalize-and-positive-max branch,
after the division; outside that branch the raw values are untouched. -/
noncomputable def processedFrequencyListLog (a : AudioData) (opts : DataProcessorOptions) :
    List ℝ :=
  if opts.normalize = true ∧ 0 < maxFrequencyValue a then
    (rawFrequencyList a).map (fun (v : ℚ) => logScale ((v : ℝ) / (maxFrequencyValue a : ℝ)))
  else (rawFrequencyList a).map (fun (v : ℚ) => (v : ℝ))

/-- Index computed by extractFrequencyBands (lines 98-100):
Math.min(Math.round(band * bufferLength / nyquist), bufferLength - 1).
Only the upper end is clamped; a negative rounded index passes through. -/
def extractBandIndex (band : ℚ) (sampleRate : ℚ) (bufferLength : ℕ) : ℤ :=
  min (jsRound (band * bufferLength / (sampleRate / 2))) ((bufferLength : ℤ) - 1)

/-- extractFrequencyBands (audioProcessor.ts lines 89-104). -/
def extractFrequencyBands (frequencyData : List ℚ) (bands : List ℚ)
    (sampleRate : ℚ) (bufferLength : ℕ) : List ℚ :=
  bands.map (fun b => jsGetD frequencyData (extractBandIndex b sampleRate bufferLength))

/-! calculateSpectrumCharacteristics (audioProcessor.ts lines 109-157).
bufferLength is frequencyData.length, so the loops traverse the whole list. -/

/-- Accumulated sum of all amplitudes (line 128). -/
def spectrumSum (freq : List ℚ) : ℚ := freq.sum

/-- Accumulated sum of frequency * amplitude, frequency of bin i being
i * nyquist / bufferLength (lines 125-129). -/
def spectrumWeightedSum (freq : List ℚ) (sampleRate : ℚ) : ℚ :=
  ((List.range freq.length).map
    (fun (i : ℕ) => (i : ℚ) * (sampleRate / 2) / freq.length * freq.getD i 0)).sum

/-- Spectral centroid (line 138): weightedSum / sum, guarded to 0. -/
def centroid (freq : List ℚ) (sampleRate : ℚ) : ℚ :=
  if 0 < spectrumSum freq then spectrumWeightedSum freq sampleRate / spectrumSum freq else 0

/-- Accumulated sum of (frequency - centroid)^2 * amplitude (lines 143-147). -/
def spreadSum (freq : List ℚ) (sampleRate : ℚ) : ℚ :=
  ((List.range freq.length).map
    (fun (i : ℕ) => ((i : ℚ) * (sampleRate / 2) / freq.length - centroid freq sampleRate) ^ 2
      * freq.getD i 0)).sum

/-- Spectral spread (lines 141-149): sqrt(spreadSum / sum), guarded to 0. -/
noncomputable def spread (freq : List ℚ) (sampleRate : ℚ) : ℝ :=
  if 0 < spectrumSum freq then Real.sqrt ((spreadSum freq sampleRate / spectrumSum freq : ℚ) : ℝ)
  else 0

/-- Product of the strictly positive amplitudes (lines 131-134): zero bins are
skipped so they do not zero the product. -/
def spectrumProduct (freq : List ℚ) : ℚ :=
  freq.foldl (fun p a => if 0 < a then p * a else p) 1

/-- Geometric mean (line 152): Math.pow(product, 1 / bufferLength), guarded to
0 when the total amplitude is not positive. Real exponentiation models the
fractional Math.pow. -/
noncomputable def geometricMean (freq : List ℚ) : ℝ :=
  if 0 < spectrumSum freq then ((spectrumProduct freq : ℝ)) ^ ((1 : ℝ) / freq.length) else 0

/-- Arithmetic mean of the amplitudes (line 153). -/
def arithmeticMean (freq : List ℚ) : ℚ := spectrumSum freq / freq.length

/-- Spectral flatness (line 154): geometricMean / arithmeticMean, guarded to 0
when the arithmetic mean is not positive. -/
noncomputable def flatness (freq : List ℚ) : ℝ :=
  if 0 < arithmeticMean freq then geometricMean freq / ((arithmeticMean freq : ℚ) : ℝ) else 0

/-! BeatDetector and TempoAnalyzer (src/unnamed/part_002). -/

/-- Required BeatDetectorOptions; constructor defaults are threshold 0.15,
decayRate 0.98, minTimeBetweenBeats 250 ms, frequencyRange 60-120 Hz. -/
structure BeatDetectorOptions where
  threshold : ℚ
  decayRate : ℚ
  minTimeBetweenBeats : ℚ
  frequencyRangeLow : ℚ
  frequencyRangeHigh : ℚ
  deriving DecidableEq

def defaultBeatOptions : BeatDetectorOptions := ⟨3/20, 49/50, 250, 60, 120⟩

structure BeatInfo where
  isBeat : Bool
  energy : ℚ
  averageEnergy : ℚ
  delta : ℚ
  time : ℚ
  deriving DecidableEq

/-- Mutable state of one BeatDetector instance. Date.now() is modelled by an
explicit time argument to detect. -/
structure BeatDetectorState where
  options : BeatDetectorOptions
  averageEnergy : ℚ
  lastBeatTime : ℚ
  energyHistory : List ℚ
  deriving DecidableEq

/-- this.historySize = 43 (about 1 s at 60 fps). -/
def historySize : ℕ := 43

/-- Constructor: averageEnergy 0, lastBeatTime 0, history zero-filled. -/
def initBeatDetector (opts : BeatDetectorOptions) : BeatDetectorState :=
  ⟨opts, 0, 0, List.replicate historySize 0⟩

/-- Inclusive integer range lo .. hi; empty when hi < lo, matching the
source's for (let i = lowIndex; i <= highIndex; i++). -/
def intRange (lo hi : ℤ) : List ℤ :=
  (List.range (hi - lo + 1).toNat).map (fun (k : ℕ) => lo + (k : ℤ))

/-- lowIndex = Math.floor(frequencyRange.low * bufferLength / nyquist)
(part_002 line 64). -/
def detectLowIndex (opts : BeatDetectorOptions) (bufferLength : ℕ) (nyquist : ℚ) : ℤ :=
  ⌊opts.frequencyRangeLow * bufferLength / nyquist⌋

/-- highIndex = Math.ceil(frequencyRange.high * bufferLength / nyquist)
(part_002 line 65). Neither index is clamped to the array length. -/
def detectHighIndex (opts : BeatDetectorOptions) (bufferLength : ℕ) (nyquist : ℚ) : ℤ :=
  ⌈opts.frequencyRangeHigh * bufferLength / nyquist⌉

/-- Total energy over the inclusive bin range (lines 70-72):
sum of (frequencyData[i] / 255)^2. -/
def detectRawEnergy (freq : List ℚ) (lo hi : ℤ) : ℚ :=
  ((intRange lo hi).map (fun i => (jsGetD freq i / 255) ^ 2)).sum

/-- Band energy (lines 67-77): averaged over the range only when
highIndex > lowIndex. -/
def detectEnergy (freq : List ℚ) (lo hi : ℤ) : ℚ :=
  if lo < hi then detectRawEnergy freq lo hi / ((hi : ℚ) - (lo : ℚ) + 1)
  else detectRawEnergy freq lo hi

/-- BeatDetector.detect (part_002 lines 49-111). A null frame returns a
zero-valued non-beat result and leaves the state untouched. Otherwise the
band energy is pushed into the 43-slot history (push then shift), the decayed
average is updated, and a beat is flagged when delta exceeds the threshold
and more than minTimeBetweenBeats elapsed since the last beat. -/
def detect (s : BeatDetectorState) (audioData : Option AudioData) (now : ℚ) :
    BeatDetectorState × BeatInfo :=
  match audioData with
  | none => (s, ⟨false, 0, 0, 0, now⟩)
  | some a =>
    let nyquist := a.sampleRate / 2
    let lo := detectLowIndex s.options a.bufferLength nyquist
    let hi := detectHighIndex s.options a.bufferLength nyquist
    let energy := detectEnergy a.frequencyData lo hi
    let history := (s.energyHistory ++ [energy]).drop 1
    let historyAverage := history.sum / (historySize : ℚ)
    let averageEnergy :=
      s.averageEnergy * s.options.decayRate + historyAverage * (1 - s.options.decayRate)
    let delta := energy - averageEnergy
    let isBeat := decide (s.options.threshold < delta)
      && decide (s.options.minTimeBetweenBeats < now - s.lastBeatTime)
    ({ s with
        averageEnergy := averageEnergy
        energyHistory := history
        lastBeatTime := if isBeat then now else s.lastBeatTime },
     ⟨isBeat, energy, averageEnergy, delta, now⟩)

/-- Runs detect over a list of (frame, timestamp) inputs, threading the
detector state, and collects the returned BeatInfo records. -/
def detectTrace (s : BeatDetectorState) : List (Option AudioData × ℚ) → List BeatInfo
  | [] => []
  | (f, t) :: rest =>
    let r := detect s f t
    r.2 :: detectTrace r.1 rest

/-- Timestamps of the calls that reported a beat. -/
def reportedBeatTimes (trace : List BeatInfo) : List ℚ :=
  (trace.filter (fun info => info.isBeat)).map (fun info => info.time)

/-! TempoAnalyzer (part_002 lines 140-196); its state is the beatTimes list. -/

def maxHistorySize : ℕ := 24

/-- TempoAnalyzer.addBeat: push, then drop the oldest beyond 24 entries. -/
def addBeat (beatTimes : List ℚ) (time : ℚ) : List ℚ :=
  let pushed := beatTimes ++ [time]
  if maxHistorySize < pushed.length then pushed.drop 1 else pushed

/-- Consecutive inter-beat intervals (lines 164-167). -/
def beatIntervals (beatTimes : List ℚ) : List ℚ :=
  (beatTimes.zip beatTimes.tail).map (fun p => p.2 - p.1)

/-- The intervals sorted ascending (line 170). -/
def sortedIntervals (beatTimes : List ℚ) : List ℚ :=
  List.insertionSort (fun a b => a ≤ b) (beatIntervals beatTimes)

/-- Outlier filter (lines 170-177): keep the intervals lying within
[Q1 - 1.5 IQR, Q3 + 1.5 IQR], quartiles read at indices floor(len/4) and
floor(3 len/4) of the sorted list. -/
def tempoFiltered (beatTimes : List ℚ) : List ℚ :=
  let sorted := sortedIntervals beatTimes
  let q1 := sorted.getD (sorted.length / 4) 0
  let q3 := sorted.getD (3 * sorted.length / 4) 0
  let iqr := q3 - q1
  (beatIntervals beatTimes).filter
    (fun i => decide (q1 - 3/2 * iqr ≤ i) && decide (i ≤ q3 + 3/2 * iqr))

/-- Mean of the surviving intervals (line 184). -/
def tempoAverageInterval (beatTimes : List ℚ) : ℚ :=
  (tempoFiltered beatTimes).sum / ((tempoFiltered beatTimes).length : ℚ)

/-- TempoAnalyzer.getTempo (lines 158-188). The final division
60000 / averageInterval is performed whenever at least one interval survives,
with no check that the average is nonzero (JavaScript yields Infinity there;
rational division by zero yields 0 in this model). -/
def getTempo (beatTimes : List ℚ) : ℤ :=
  if beatTimes.length < 4 then 0
  else if tempoFiltered beatTimes = [] then 0
  else jsRound (60000 / tempoAverageInterval beatTimes)

/-- Modelled from the spec (section 4.4) for the refinement claim: the
surviving intervals, taken out of the sorted list — same multiset as the
source's filter over the unsorted intervals. -/
def specSurviving (beatTimes : List ℚ) : List ℚ :=
  let sorted := List.insertionSort (fun a b => a ≤ b) (beatIntervals beatTimes)
  let q1 := sorted.getD (sorted.length / 4) 0
  let q3 := sorted.getD (3 * sorted.length / 4) 0
  let iqr := q3 - q1
  sorted.filter (fun i => decide (q1 - 3/2 * iqr ≤ i) && decide (i ≤ q3 + 3/2 * iqr))

/-- Modelled from the spec (section 4.4): sort the intervals, read Q1/Q3 at
floor(0.25 len)/floor(0.75 len) with no interpolation, keep intervals within
[Q1 - 1.5 IQR, Q3 + 1.5 IQR], return round(60000 / mean of survivors), and 0
with fewer than 4 beats or no survivor. -/
def specTempo (beatTimes : List ℚ) : ℤ :=
  if beatTimes.length < 4 then 0
  else if specSurviving beatTimes = [] then 0
  else jsRound (60000 / ((specSurviving beatTimes).sum / ((specSurviving beatTimes).length : ℚ)))

/-- Concrete frame used to exercise the beat detector: sampleRate 480 gives
nyquist 240, so the default 60-120 Hz range covers bins 1..2 of the 4-bin
spectrum [0, 255, 255, 0] — every read is within the array — for a band
energy of ((255/255)^2 + (255/255)^2) / 2 = 1. -/
def witnessFrame : AudioData := ⟨[0, 255, 255, 0], [0, 0, 0, 0], 480, 4⟩

/-- Two spike frames 400 ms apart. -/
def witnessInputs : List (Option AudioData × ℚ) :=
  [(some witnessFrame, 1000), (some witnessFrame, 1400)]

/-! Helper lemmas. -/

lemma getD_take (l : List ℚ) (n i : ℕ) (h : i < n) : (l.take n).getD i 0 = l.getD i 0 := by
  simp [List.getD_eq_getElem?_getD, List.getElem?_take, h]

lemma getD_nonneg (l : List ℚ) (i : ℕ) (h : ∀ x ∈ l, 0 ≤ x) : 0 ≤ l.getD i 0 := by
  rcases h' : l[i]? with _ | x
  · simp [List.getD_eq_getElem?_getD, h']
  · rw [List.getD_eq_getElem?_getD, h']
    exact h x (List.getElem?_mem h')

lemma getD_eq_zero (l : List ℚ) (i : ℕ) (h : ∀ x ∈ l, x = 0) : l.getD i 0 = 0 := by
  rcases h' : l[i]? with _ | x
  · simp [List.getD_eq_getElem?_getD, h']
  · rw [List.getD_eq_getElem?_getD, h']
    exact h x (List.getElem?_mem h')

lemma maxScanAux_congr (f g : List ℚ) :
    ∀ n, (∀ i, i < n → f.getD i 0 = g.getD i 0) → maxScanAux f n = maxScanAux g n := by
  intro n
  induction n with
  | zero => intro _; rfl
  | succ m ih =>
    intro h
    simp only [maxScanAux, ih (fun i hi => h i (hi.trans (Nat.lt_succ_self m))),
      h m (Nat.lt_succ_self m)]

lemma maxScanAux_fst_nonneg (f : List ℚ) : ∀ n, 0 ≤ (maxScanAux f n).1 := by
  intro n
  induction n with
  | zero => exact le_refl 0
  | succ m ih =>
    simp only [maxScanAux]
    by_cases h : (maxScanAux f m).1 < f.getD m 0
    · rw [if_pos h]
      exact le_of_lt (lt_of_le_of_lt ih h)
    · rw [if_neg h]
      exact ih

lemma maxScanAux_fst_ge (f : List ℚ) :
    ∀ n i, i < n → f.getD i 0 ≤ (maxScanAux f n).1 := by
  intro n
  induction n with
  | zero => intro i hi; omega
  | succ m ih =>
    intro i hi
    simp only [maxScanAux]
    by_cases h : (maxScanAux f m).1 < f.getD m 0
    · rw [if_pos h]
      rcases Nat.lt_succ_iff_lt_or_eq.mp hi with h2 | h2
      · exact le_of_lt (lt_of_le_of_lt (ih i h2) h)
      · exact le_of_eq (by rw [h2])
    · rw [if_neg h]
      rcases Nat.lt_succ_iff_lt_or_eq.mp hi with h2 | h2
      · exact ih i h2
      · rw [h2]; exact not_lt.mp h

lemma maxScanAux_fst_eq_getD (f : List ℚ) :
    ∀ n, 0 < (maxScanAux f n).1 →
      f.getD (maxScanAux f n).2 0 = (maxScanAux f n).1 ∧ (maxScanAux f n).2 < n := by
  intro n
  induction n with
  | zero =>
    intro h
    simp [maxScanAux] at h
  | succ m ih =>
    intro hpos
    simp only [maxScanAux] at hpos ⊢
    by_cases h : (maxScanAux f m).1 < f.getD m 0
    · rw [if_pos h] at hpos ⊢
      exact ⟨rfl, Nat.lt_succ_self m⟩
    · rw [if_neg h] at hpos ⊢
      obtain ⟨h1, h2⟩ := ih hpos
      exact ⟨h1, h2.trans (Nat.lt_succ_self m)⟩

lemma maxScanAux_eq_zero (f : List ℚ) (hf : ∀ x ∈ f, x = 0) : ∀ n, maxScanAux f n = (0, 0) := by
  intro n
  induction n with
  | zero => rfl
  | succ m ih =>
    simp only [maxScanAux, ih, getD_eq_zero f m hf]
    norm_num

lemma arithmeticMean_nonpos (freq : List ℚ) (hsum : ¬0 < spectrumSum freq) :
    ¬0 < arithmeticMean freq := by
  unfold arithmeticMean
  intro hlt
  have hle : spectrumSum freq ≤ 0 := not_lt.mp hsum
  have hnp : spectrumSum freq / (freq.length : ℚ) ≤ 0 :=
    div_nonpos_iff.mpr (Or.inr ⟨hle, Nat.cast_nonneg _⟩)
  exact absurd hlt (not_lt.mpr hnp)

lemma flatness_of_sum_nonpos (freq : List ℚ) (hsum : ¬0 < spectrumSum freq) :
    flatness freq = 0 := by
  rw [flatness, if_neg (arithmeticMean_nonpos freq hsum)]

lemma foldl_product_replicate_zero :
    ∀ (m : ℕ) (p : ℚ),
      (List.replicate m (0:ℚ)).foldl (fun p a => if 0 < a then p * a else p) p = p := by
  intro m
  induction m with
  | zero => intro p; rfl
  | succ k ih =>
    intro p
    rw [List.replicate_succ, List.foldl_cons, if_neg (lt_irrefl 0), ih]

lemma foldl_product_replicate (c : ℚ) (hc : 0 < c) :
    ∀ (n : ℕ) (p : ℚ),
      (List.replicate n c).foldl (fun p a => if 0 < a then p * a else p) p = p * c ^ n := by
  intro n
  induction n with
  | zero => intro p; simp
  | succ k ih =>
    intro p
    rw [List.replicate_succ, List.foldl_cons, if_pos hc, ih, pow_succ]
    ring

lemma spectrumProduct_replicate (n : ℕ) (c : ℚ) (hc : 0 < c) :
    spectrumProduct (List.replicate n c) = c ^ n := by
  rw [spectrumProduct, foldl_product_replicate c hc n 1, one_mul]

lemma spectrumProduct_single (n : ℕ) (a : ℚ) (ha : 0 < a) :
    spectrumProduct (a :: List.replicate n 0) = a := by
  rw [spectrumProduct, List.foldl_cons, if_pos ha, foldl_product_replicate_zero, one_mul]

lemma spectrumSum_replicate (n : ℕ) (c : ℚ) :
    spectrumSum (List.replicate n c) = (n : ℚ) * c := by
  simp [spectrumSum, List.sum_replicate]

lemma spectrumSum_single (n : ℕ) (a : ℚ) :
    spectrumSum (a :: List.replicate n 0) = a := by
  simp [spectrumSum, List.sum_replicate]

lemma flatness_replicate_eq_one (n : ℕ) (c : ℚ) (hn : 1 ≤ n) (hc : 0 < c) :
    flatness (List.replicate n c) = 1 := by
  have hn0 : (n : ℚ) ≠ 0 := Nat.cast_ne_zero.mpr (by omega)
  have hnR : (n : ℝ) ≠ 0 := Nat.cast_ne_zero.mpr (by omega)
  have hlen : (List.replicate n c).length = n := List.length_replicate n c
  have hsum := spectrumSum_replicate n c
  have hpos : 0 < spectrumSum (List.replicate n c) := by
    rw [hsum]
    exact mul_pos (by exact_mod_cast Nat.pos_of_ne_zero (by omega)) hc
  have hmean : arithmeticMean (List.replicate n c) = c := by
    rw [arithmeticMean, hsum, hlen]
    field_simp
  rw [flatness, hmean, if_pos hc, geometricMean, if_pos hpos,
    spectrumProduct_replicate n c hc, hlen]
  push_cast
  rw [← Real.rpow_natCast ((c : ℝ)) n, ← Real.rpow_mul (le_of_lt (by exact_mod_cast hc)),
    mul_one_div, div_self hnR, Real.rpow_one]
  exact div_self (by exact_mod_cast ne_of_gt hc)

lemma flatness_single_pos (n : ℕ) (a : ℚ) (ha : 0 < a) :
    0 < flatness (a :: List.replicate n 0) := by
  have hsum := spectrumSum_single n a
  have hpos : 0 < spectrumSum (a :: List.replicate n 0) := by rw [hsum]; exact ha
  have hlen : (a :: List.replicate n 0).length = n + 1 := by simp
  have hmeanpos : 0 < arithmeticMean (a :: List.replicate n 0) := by
    rw [arithmeticMean, hsum, hlen]
    refine div_pos ha ?_
    exact_mod_cast Nat.succ_pos n
  rw [flatness, if_pos hmeanpos, geometricMean, if_pos hpos, spectrumProduct_single n a ha]
  refine div_pos (Real.rpow_pos_of_pos (by exact_mod_cast ha) _) ?_
  exact_mod_cast hmeanpos

/-! Claims. -/

/-- C8: BeatDetector.detect called with a null/absent frame returns a
zero-valued, non-beat result (isBeat = false, energy = 0, averageEnergy = 0,
delta = 0) and leaves the detector state — energy history, averageEnergy,
lastBeatTimestamp and options — completely unchanged. -/
theorem detect_null_frame_noop :
    ∀ (s : BeatDetectorState) (t : ℚ), detect s none t = (s, ⟨false, 0, 0, 0, t⟩) :=
  fun _ _ => rfl

/-- C1 counterexample: a frame whose timeSamples and frequencyMagnitudes have
different (nonempty) lengths is not rejected: processAudioData returns a
fully-computed VisualizerProcessedData record; no ValidationError path exists
in the source. -/
theorem processAudioData_mismatched_returns_frame :
    ([(7:ℚ), 9].length ≠ [(5:ℚ)].length) ∧
    processAudioData ⟨[5], [7, 9], 44100, 1⟩ defaultOptions =
      ⟨[1], [7/128 - 1], 121/128, 1/51, true, ⟨0, 1/51, 0⟩⟩ := by
  constructor
  · norm_num
  · norm_num [processAudioData, processedFrequencyList, rawFrequencyList, processedTimeList,
      volumeOf, maxFrequencyValue, maxFrequencyIndex, nyquistOf, defaultOptions,
      show maxScanAux [(5:ℚ)] 1 = (5, 0) from rfl,
      show List.range 1 = [0] from rfl, abs_of_nonpos]

/-- C1 (amended): processAudioData performs no shape validation and never
fails with a ValidationError; it is a total function that reads only the
indices below bufferLength of either array, so every frame — mismatched or
empty arrays included — produces the same NormalizedFrame as its truncation
to the first bufferLength entries. -/
theorem processAudioData_no_validation (a : AudioData) (opts : DataProcessorOptions) :
    processAudioData a opts =
      processAudioData
        ⟨a.frequencyData.take a.bufferLength, a.timeData.take a.bufferLength,
          a.sampleRate, a.bufferLength⟩ opts := by
  have hscan : maxScanAux (a.frequencyData.take a.bufferLength) a.bufferLength =
      maxScanAux a.frequencyData a.bufferLength :=
    maxScanAux_congr _ _ a.bufferLength (fun i hi => getD_take a.frequencyData a.bufferLength i hi)
  have hraw : rawFrequencyList
      ⟨a.frequencyData.take a.bufferLength, a.timeData.take a.bufferLength,
        a.sampleRate, a.bufferLength⟩ = rawFrequencyList a := by
    unfold rawFrequencyList
    exact List.map_congr_left
      (fun i hi => getD_take a.frequencyData a.bufferLength i (List.mem_range.mp hi))
  have htime : processedTimeList
      ⟨a.frequencyData.take a.bufferLength, a.timeData.take a.bufferLength,
        a.sampleRate, a.bufferLength⟩ = processedTimeList a := by
    unfold processedTimeList
    refine List.map_congr_left (fun i hi => ?_)
    rw [getD_take a.timeData a.bufferLength i (List.mem_range.mp hi)]
  unfold processAudioData volumeOf processedFrequencyList maxFrequencyValue maxFrequencyIndex
    nyquistOf
  rw [hscan, hraw, htime]

lemma surviving_perm (bt : List ℚ) : (specSurviving bt).Perm (tempoFiltered bt) := by
  unfold specSurviving tempoFiltered sortedIntervals
  exact (List.perm_insertionSort _ _).filter _

/-- C2: getTempo returns 0 with fewer than 4 stored beats; otherwise it
matches the spec algorithm (n-1 consecutive intervals, sorted, Q1/Q3 at
floor(0.25 len)/floor(0.75 len) with no interpolation, 1.5-IQR fence,
round(60000 / mean of survivors), 0 when none survive); and after addBeat at
t = 0, 500, 1000, 1500 on a fresh estimator, getTempo is 120. -/
theorem getTempo_matches_spec :
    (∀ bt : List ℚ, bt.length < 4 → getTempo bt = 0) ∧
    (∀ bt : List ℚ, getTempo bt = specTempo bt) ∧
    getTempo (addBeat (addBeat (addBeat (addBeat [] 0) 500) 1000) 1500) = 120 := by
  refine ⟨fun bt h => by simp [getTempo, h], fun bt => ?_, ?_⟩
  · unfold getTempo specTempo
    by_cases h4 : bt.length < 4
    · simp [h4]
    · simp only [h4, if_false]
      have hperm := surviving_perm bt
      have hempty : specSurviving bt = [] ↔ tempoFiltered bt = [] := by
        constructor <;> intro he
        · have h2 : List.Perm (tempoFiltered bt) [] := by rw [← he]; exact hperm.symm
          exact h2.eq_nil
        · have h2 : List.Perm (specSurviving bt) [] := by rw [← he]; exact hperm
          exact h2.eq_nil
      by_cases he : tempoFiltered bt = []
      · rw [if_pos he, if_pos (hempty.mpr he)]
      · rw [if_neg he, if_neg (fun hc => he (hempty.mp hc)), tempoAverageInterval,
          hperm.sum_eq, hperm.length_eq]
  · norm_num [addBeat, maxHistorySize, getTempo, tempoFiltered, sortedIntervals, beatIntervals,
      tempoAverageInterval, jsRound, List.insertionSort, List.orderedInsert, List.cons_ne_nil]

/-- C2 witness: three stored beats are not enough, getTempo is 0. -/
theorem getTempo_matches_spec_witness : getTempo [10, 20, 30] = 0 :=
  getTempo_matches_spec.1 [10, 20, 30] (by norm_num)

/-- C3 counterexample: on the literally all-zero frame the time-domain bytes
map to (0/128) - 1 = -1, so normalize returns volume = 1 and isActive = true,
not the claimed volume = 0 and isActive = false (byte 128, not 0, encodes a
silent sample). -/
theorem processAudioData_allzero_volume_one :
    (processAudioData ⟨[0, 0], [0, 0], 44100, 2⟩ defaultOptions).volume = 1 ∧
    (processAudioData ⟨[0, 0], [0, 0], 44100, 2⟩ defaultOptions).isActive = true := by
  norm_num [processAudioData, processedTimeList, volumeOf,
    show List.range 2 = [0, 1] from rfl, abs_of_nonpos]

/-- C3 (amended): for every nonempty frame whose frequencyMagnitudes are all
zero and whose timeSamples all hold 128 — the unsigned-byte encoding of a
zero-amplitude signal — normalize returns volume = 0, isActive = false and
dominant.amplitude = 0, and the frequency array is passed through raw (the
normalization division by maxValue is skipped, so no division by zero
occurs). -/
theorem processAudioData_silence_invariant (a : AudioData) (opts : DataProcessorOptions)
    (hfreq : ∀ x ∈ a.frequencyData, x = 0) (htime : ∀ x ∈ a.timeData, x = 128)
    (hlen : a.bufferLength ≤ a.timeData.length) (_hpos : 0 < a.bufferLength) :
    (processAudioData a opts).volume = 0 ∧
    (processAudioData a opts).isActive = false ∧
    (processAudioData a opts).dominant.amplitude = 0 ∧
    (processAudioData a opts).frequencyData = rawFrequencyList a := by
  have hscan := maxScanAux_eq_zero a.frequencyData hfreq a.bufferLength
  have hmax : maxFrequencyValue a = 0 := by rw [maxFrequencyValue, hscan]
  have htd : ∀ i, i < a.bufferLength → a.timeData.getD i 0 = 128 := by
    intro i hi
    have hi' : i < a.timeData.length := lt_of_lt_of_le hi hlen
    rw [List.getD_eq_getElem?_getD, List.getElem?_eq_getElem hi']
    exact htime _ (a.timeData.getElem_mem hi')
  have hvol : volumeOf a = 0 := by
    unfold volumeOf processedTimeList
    rw [List.map_map]
    have hz : ((List.range a.bufferLength).map
        ((fun v => |v|) ∘ fun i => a.timeData.getD i 0 / 128 - 1)).sum = 0 := by
      apply List.sum_eq_zero
      intro x hx
      obtain ⟨i, hi, rfl⟩ := List.mem_map.mp hx
      have h128 := htd i (List.mem_range.mp hi)
      rw [List.getD_eq_getElem?_getD] at h128
      simp [h128]
    rw [hz, zero_div]
  refine ⟨hvol, ?_, ?_, ?_⟩
  · show decide ((1/20 : ℚ) < volumeOf a) = false
    rw [hvol]
    norm_num
  · show maxFrequencyValue a / 255 = 0
    rw [hmax, zero_div]
  · show processedFrequencyList a opts = rawFrequencyList a
    unfold processedFrequencyList
    rw [if_neg]
    rintro ⟨-, hlt⟩
    rw [hmax] at hlt
    exact lt_irrefl 0 hlt

/-- C3 witness: the amended silence invariant at the concrete frame
frequencyData [0, 0], timeData [128, 128]. -/
theorem processAudioData_silence_witness :
    (processAudioData ⟨[0, 0], [128, 128], 44100, 2⟩ defaultOptions).volume = 0 ∧
    (processAudioData ⟨[0, 0], [128, 128], 44100, 2⟩ defaultOptions).isActive = false ∧
    (processAudioData ⟨[0, 0], [128, 128], 44100, 2⟩ defaultOptions).dominant.amplitude = 0 ∧
    (processAudioData ⟨[0, 0], [128, 128], 44100, 2⟩ defaultOptions).frequencyData =
      rawFrequencyList ⟨[0, 0], [128, 128], 44100, 2⟩ :=
  processAudioData_silence_invariant ⟨[0, 0], [128, 128], 44100, 2⟩ defaultOptions
    (by norm_num) (by norm_num) (by norm_num) (by norm_num)

/-- C9 counterexample: after four addBeat calls at the same timestamp — a
reachable TempoEstimator state — at least one interval survives the outlier
filter, yet the mean of the surviving intervals is 0, so getTempo performs
the division 60000 / 0 with no guard (JavaScript evaluates it to Infinity;
rational division by zero is 0 in this model). -/
theorem getTempo_zero_denominator_reachable :
    tempoFiltered (addBeat (addBeat (addBeat (addBeat [] 1000) 1000) 1000) 1000) ≠ [] ∧
    tempoAverageInterval (addBeat (addBeat (addBeat (addBeat [] 1000) 1000) 1000) 1000) = 0 ∧
    ¬(addBeat (addBeat (addBeat (addBeat [] 1000) 1000) 1000) 1000).length < 4 := by
  norm_num [addBeat, maxHistorySize, tempoFiltered, sortedIntervals, beatIntervals,
    tempoAverageInterval, List.insertionSort, List.orderedInsert, List.cons_ne_nil]

/-- C9 (amended): the division-by-zero guards hold for normalization (skipped
when maxValue is 0), for centroid, spread and flatness (all 0 when the total
amplitude is not positive), for the band-energy average (division only
happens when highIndex > lowIndex, where the denominator is nonzero), and for
getTempo's no-survivor branch — but not for getTempo's final division
60000 / mean(survivingIntervals), whose denominator can be 0 in a reachable
state (see the counterexample). -/
theorem division_guards :
    (∀ (a : AudioData) (opts : DataProcessorOptions), maxFrequencyValue a = 0 →
      (processAudioData a opts).frequencyData = rawFrequencyList a) ∧
    (∀ (freq : List ℚ) (sr : ℚ), ¬0 < spectrumSum freq →
      centroid freq sr = 0 ∧ spread freq sr = 0 ∧ flatness freq = 0) ∧
    (∀ (freq : List ℚ) (lo hi : ℤ), ¬lo < hi →
      detectEnergy freq lo hi = detectRawEnergy freq lo hi) ∧
    (∀ lo hi : ℤ, lo < hi → ((hi : ℚ) - (lo : ℚ) + 1) ≠ 0) ∧
    (∀ bt : List ℚ, tempoFiltered bt = [] → getTempo bt = 0) := by
  refine ⟨?_, ?_, ?_, ?_, ?_⟩
  · intro a opts hmax
    show processedFrequencyList a opts = rawFrequencyList a
    unfold processedFrequencyList
    rw [if_neg]
    rintro ⟨-, hlt⟩
    rw [hmax] at hlt
    exact lt_irrefl 0 hlt
  · intro freq sr hsum
    exact ⟨by rw [centroid, if_neg hsum], by rw [spread, if_neg hsum],
      flatness_of_sum_nonpos freq hsum⟩
  · intro freq lo hi h
    rw [detectEnergy, if_neg h]
  · intro lo hi h
    have h1 : lo + 1 ≤ hi := h
    have h2 : ((lo : ℚ) + 1 : ℚ) ≤ (hi : ℚ) := by exact_mod_cast h1
    linarith
  · intro bt he
    unfold getTempo
    by_cases h4 : bt.length < 4
    · rw [if_pos h4]
    · rw [if_neg h4, if_pos he]

/-- C9 witness: the guard facts applied at concrete inputs — an all-zero
spectrum gives centroid, spread and flatness 0, and a degenerate band range
leaves the raw (unaveraged) energy. -/
theorem division_guards_witness :
    (centroid [0, 0, 0] 44100 = 0 ∧ spread [0, 0, 0] 44100 = 0 ∧ flatness [0, 0, 0] = 0) ∧
    detectEnergy [9, 9] 1 1 = detectRawEnergy [9, 9] 1 1 ∧
    getTempo [5] = 0 := by
  refine ⟨division_guards.2.1 [0, 0, 0] 44100 (by norm_num [spectrumSum]), ?_, ?_⟩
  · exact division_guards.2.2.1 [9, 9] 1 1 (by norm_num)
  · exact division_guards.2.2.2.2 [5] (by norm_num [tempoFiltered, sortedIntervals,
      beatIntervals])

/-- C4 counterexample: for the magnitude array [255, 0, 0, 0] — a single
nonzero bin among zeros — flatness is not 0: the zero bins are excluded from
the product, so the geometric mean stays positive
(flatness = 4 * 255 ^ (1/4 - 1) > 0). -/
theorem flatness_single_bin_ne_zero : flatness [255, 0, 0, 0] ≠ 0 := by
  have h0 : (0 : ℝ) < flatness ((255 : ℚ) :: List.replicate 3 0) :=
    flatness_single_pos 3 255 (by norm_num)
  exact ne_of_gt h0

/-- C4 (amended): flatness is geometricMean/arithmeticMean with the geometric
mean computed as (product of the strictly positive bins)^(1/N) for the full
bin count N, and flatness is 0 when the total amplitude is not positive; for
an array with all bins equal and positive flatness equals 1 exactly, but for
a single nonzero bin among zeros flatness is strictly positive (not 0),
because the zero bins are excluded from the product. -/
theorem flatness_characterization :
    (∀ (n : ℕ) (c : ℚ), 1 ≤ n → 0 < c → flatness (List.replicate n c) = 1) ∧
    (∀ (n : ℕ) (a : ℚ), 0 < a → 0 < flatness (a :: List.replicate n 0)) ∧
    (∀ freq : List ℚ, ¬0 < spectrumSum freq → flatness freq = 0) :=
  ⟨fun n c hn hc => flatness_replicate_eq_one n c hn hc,
   fun n a ha => flatness_single_pos n a ha,
   fun freq hsum => flatness_of_sum_nonpos freq hsum⟩

/-- C4 witness: the amended facts at concrete arrays — four equal positive
bins give flatness 1, and the all-zero spectrum gives flatness 0. -/
theorem flatness_characterization_witness :
    flatness (List.replicate 4 (10 : ℚ)) = 1 ∧ flatness [0, 0, 0] = 0 := by
  constructor
  · exact flatness_characterization.1 4 10 (by norm_num) (by norm_num)
  · have h : ¬0 < spectrumSum [0, 0, 0] := by norm_num [spectrumSum]
    exact flatness_characterization.2.2 [0, 0, 0] h

/-- C7 counterexample: extractFrequencyBands clamps the computed index only
from above; the negative band center -3000 Hz yields index -1, outside
[0, bufferLength-1], so the array access is out of bounds (JavaScript reads
undefined; the model's jsGetD falls back to 0 instead of magnitudes[0]). -/
theorem extractBands_negative_center_oob :
    extractBandIndex (-3000) 44100 4 = -1 ∧
    extractFrequencyBands [7, 8, 9, 10] [-3000] 44100 4 = [0] := by
  norm_num [extractBandIndex, extractFrequencyBands, jsRound, jsGetD]

/-- C7 (amended): the computed index is clamped only from above to
bufferLength - 1; for every list of nonnegative band centers (with a positive
sample rate and bufferLength at least 1) each access index lies in
[0, bufferLength-1], and with center 60 Hz, sampleRate 44100 and bufferLength
1024 the index is round(60*1024/22050) = 3 and the result reads the
magnitude at index 3. -/
theorem extractBands_inbounds_nonneg (bands : List ℚ) (sampleRate : ℚ) (bufferLength : ℕ)
    (hsr : 0 < sampleRate) (hbl : 1 ≤ bufferLength) (hb : ∀ b ∈ bands, 0 ≤ b) :
    (∀ b ∈ bands, 0 ≤ extractBandIndex b sampleRate bufferLength ∧
      extractBandIndex b sampleRate bufferLength ≤ (bufferLength : ℤ) - 1) ∧
    extractBandIndex 60 44100 1024 = 3 ∧
    (∀ m : List ℚ, extractFrequencyBands m [60] 44100 1024 = [jsGetD m 3]) := by
  have h3 : extractBandIndex 60 44100 1024 = 3 := by
    norm_num [extractBandIndex, jsRound]
  refine ⟨?_, h3, ?_⟩
  · intro b hbmem
    constructor
    · rw [extractBandIndex]
      refine le_min ?_ (by omega)
      rw [jsRound]
      refine Int.le_floor.mpr ?_
      push_cast
      have hq : 0 ≤ b * (bufferLength : ℚ) / (sampleRate / 2) :=
        div_nonneg (mul_nonneg (hb b hbmem) (Nat.cast_nonneg _)) (by linarith)
      linarith
    · exact min_le_right _ _
  · intro m
    rw [extractFrequencyBands, List.map_cons, List.map_nil, h3]

lemma logScale_bounds (u : ℝ) (h1 : u ≤ 1) : 0 ≤ logScale u ∧ logScale u ≤ 1 := by
  have hw1 : (1 : ℝ)/1000 ≤ max u (1/1000) := le_max_right _ _
  have hw2 : max u (1/1000) ≤ 1 := max_le h1 (by norm_num)
  have hx1 : 1 ≤ max u (1/1000) * (10 - 1) + 1 := by nlinarith
  have hx2 : max u (1/1000) * (10 - 1) + 1 ≤ 10 := by nlinarith
  have hlog10 : 0 < Real.log 10 := Real.log_pos (by norm_num)
  unfold logScale
  constructor
  · exact div_nonneg (Real.log_nonneg hx1) (le_of_lt hlog10)
  · rw [div_le_one hlog10]
    exact (Real.log_le_log_iff (by linarith) (by norm_num)).mpr hx2

lemma rawFrequencyList_bounds (a : AudioData) (hpos : ∀ x ∈ a.frequencyData, 0 ≤ x) :
    ∀ v ∈ rawFrequencyList a, 0 ≤ v ∧ v ≤ maxFrequencyValue a := by
  intro v hv
  obtain ⟨i, hi, rfl⟩ := List.mem_map.mp hv
  exact ⟨getD_nonneg _ _ hpos,
    maxScanAux_fst_ge a.frequencyData a.bufferLength i (List.mem_range.mp hi)⟩

/-- C6: with normalize = true every output frequency level lies in [0,1] —
both without logarithmic scaling and with it — and the bin that held the
maximum raw magnitude maps to exactly 1 before logarithmic scaling. Stated
for frames with nonnegative (byte-valued) magnitudes. -/
theorem normalized_frequency_bounds (a : AudioData) (opts : DataProcessorOptions)
    (hpos : ∀ x ∈ a.frequencyData, 0 ≤ x) (hnorm : opts.normalize = true) :
    (∀ v ∈ (processAudioData a opts).frequencyData, 0 ≤ v ∧ v ≤ 1) ∧
    (0 < maxFrequencyValue a →
      (processAudioData a opts).frequencyData.getD (maxFrequencyIndex a) 0 = 1) ∧
    (∀ v ∈ processedFrequencyListLog a opts, 0 ≤ v ∧ v ≤ 1) := by
  have hraw := rawFrequencyList_bounds a hpos
  refine ⟨?_, ?_, ?_⟩
  · show ∀ v ∈ processedFrequencyList a opts, 0 ≤ v ∧ v ≤ 1
    unfold processedFrequencyList
    by_cases hmax : 0 < maxFrequencyValue a
    · rw [if_pos ⟨hnorm, hmax⟩]
      intro v hv
      obtain ⟨w, hw, rfl⟩ := List.mem_map.mp hv
      obtain ⟨hw0, hwm⟩ := hraw w hw
      exact ⟨div_nonneg hw0 (le_of_lt hmax), (div_le_one hmax).mpr hwm⟩
    · rw [if_neg (fun hc => hmax hc.2)]
      intro v hv
      obtain ⟨hv0, hvm⟩ := hraw v hv
      have hm0 : maxFrequencyValue a = 0 :=
        le_antisymm (not_lt.mp hmax) (maxScanAux_fst_nonneg a.frequencyData a.bufferLength)
      rw [hm0] at hvm
      exact ⟨hv0, hvm.trans (by norm_num)⟩
  · intro hmax
    show (processedFrequencyList a opts).getD (maxFrequencyIndex a) 0 = 1
    obtain ⟨hget, hlt⟩ := maxScanAux_fst_eq_getD a.frequencyData a.bufferLength hmax
    have hlt' : maxFrequencyIndex a < a.bufferLength := hlt
    unfold processedFrequencyList
    rw [if_pos ⟨hnorm, hmax⟩]
    rw [List.getD_eq_getElem?_getD, List.getElem?_map]
    have hr : (rawFrequencyList a)[maxFrequencyIndex a]? =
        some (a.frequencyData.getD (maxFrequencyIndex a) 0) := by
      unfold rawFrequencyList
      rw [List.getElem?_map, List.getElem?_range hlt']
      rfl
    rw [hr]
    show a.frequencyData.getD (maxFrequencyIndex a) 0 / maxFrequencyValue a = 1
    rw [maxFrequencyIndex, maxFrequencyValue] at *
    rw [hget]
    exact div_self (ne_of_gt hmax)
  · unfold processedFrequencyListLog
    by_cases hmax : 0 < maxFrequencyValue a
    · rw [if_pos ⟨hnorm, hmax⟩]
      intro v hv
      obtain ⟨w, hw, rfl⟩ := List.mem_map.mp hv
      obtain ⟨hw0, hwm⟩ := hraw w hw
      have hu1 : (w : ℝ) / (maxFrequencyValue a : ℝ) ≤ 1 := by
        rw [div_le_one (by exact_mod_cast hmax)]
        exact_mod_cast hwm
      exact logScale_bounds _ hu1
    · rw [if_neg (fun hc => hmax hc.2)]
      intro v hv
      obtain ⟨w, hw, rfl⟩ := List.mem_map.mp hv
      obtain ⟨hw0, hwm⟩ := hraw w hw
      have hm0 : maxFrequencyValue a = 0 :=
        le_antisymm (not_lt.mp hmax) (maxScanAux_fst_nonneg a.frequencyData a.bufferLength)
      rw [hm0] at hwm
      have hw00 : w = 0 := le_antisymm hwm hw0
      rw [hw00]
      norm_num

/-- C6 witness: the normalization bounds at the concrete frame with
magnitudes [3, 5]: the max bin maps to exactly 1. -/
theorem normalized_frequency_bounds_witness :
    (processAudioData ⟨[3, 5], [0, 0], 44100, 2⟩ defaultOptions).frequencyData.getD
      (maxFrequencyIndex ⟨[3, 5], [0, 0], 44100, 2⟩) 0 = 1 :=
  (normalized_frequency_bounds ⟨[3, 5], [0, 0], 44100, 2⟩ defaultOptions
    (by norm_num) rfl).2.1
    (by norm_num [maxFrequencyValue, show maxScanAux [(3:ℚ), 5] 2 = (5, 1) from rfl])

lemma detect_fst_options (s : BeatDetectorState) (f : Option AudioData) (t : ℚ) :
    (detect s f t).1.options = s.options := by
  cases f <;> rfl

lemma detect_snd_time (s : BeatDetectorState) (f : Option AudioData) (t : ℚ) :
    (detect s f t).2.time = t := by
  cases f <;> rfl

lemma detect_isBeat_iff (s : BeatDetectorState) (a : AudioData) (t : ℚ) :
    (detect s (some a) t).2.isBeat = true ↔
      s.options.threshold < (detect s (some a) t).2.delta ∧
      s.options.minTimeBetweenBeats < t - s.lastBeatTime := by
  simp [detect, Bool.and_eq_true, decide_eq_true_eq]

lemma detect_lastBeatTime (s : BeatDetectorState) (f : Option AudioData) (t : ℚ) :
    (detect s f t).1.lastBeatTime =
      if (detect s f t).2.isBeat then t else s.lastBeatTime := by
  cases f with
  | none => simp [detect]
  | some a => rfl

lemma detect_isBeat_elapsed (s : BeatDetectorState) (f : Option AudioData) (t : ℚ)
    (hb : (detect s f t).2.isBeat = true) :
    s.options.minTimeBetweenBeats < t - s.lastBeatTime := by
  cases f with
  | none => exact absurd hb (by simp [detect])
  | some a => exact ((detect_isBeat_iff s a t).mp hb).2

lemma beats_after (inputs : List (Option AudioData × ℚ)) :
    ∀ (s : BeatDetectorState) (T : ℚ),
      T ≤ s.lastBeatTime → (∀ q ∈ inputs.map Prod.snd, T ≤ q) →
      ∀ u ∈ reportedBeatTimes (detectTrace s inputs),
        s.options.minTimeBetweenBeats < u - T := by
  induction inputs with
  | nil =>
    intro s T _ _ u hu
    simp [detectTrace, reportedBeatTimes] at hu
  | cons ft rest ih =>
    obtain ⟨f, t⟩ := ft
    intro s T hT hts u hu
    have ht : T ≤ t := hts t (by simp)
    have htail : ∀ q ∈ rest.map Prod.snd, T ≤ q := fun q hq => hts q (by simp [hq])
    simp only [detectTrace, reportedBeatTimes, List.filter_cons] at hu
    by_cases hb : (detect s f t).2.isBeat = true
    · rw [if_pos hb, List.map_cons] at hu
      rcases List.mem_cons.mp hu with h | h
      · have helapsed := detect_isBeat_elapsed s f t hb
        rw [h, detect_snd_time]
        linarith
      · have hT' : T ≤ (detect s f t).1.lastBeatTime := by
          rw [detect_lastBeatTime, if_pos hb]
          exact ht
        have := ih (detect s f t).1 T hT' htail u h
        rwa [detect_fst_options] at this
    · rw [if_neg hb] at hu
      have hT' : T ≤ (detect s f t).1.lastBeatTime := by
        rw [detect_lastBeatTime, if_neg hb]
        exact hT
      have := ih (detect s f t).1 T hT' htail u hu
      rwa [detect_fst_options] at this

lemma pairwise_beats (inputs : List (Option AudioData × ℚ)) :
    ∀ s : BeatDetectorState,
      List.Pairwise (fun a b => a ≤ b) (inputs.map Prod.snd) →
      List.Pairwise (fun t1 t2 => s.options.minTimeBetweenBeats < t2 - t1)
        (reportedBeatTimes (detectTrace s inputs)) := by
  induction inputs with
  | nil =>
    intro s _
    simp [detectTrace, reportedBeatTimes]
  | cons ft rest ih =>
    obtain ⟨f, t⟩ := ft
    intro s hsort
    rw [List.map_cons, List.pairwise_cons] at hsort
    obtain ⟨hts, hrest⟩ := hsort
    simp only [detectTrace, reportedBeatTimes, List.filter_cons]
    by_cases hb : (detect s f t).2.isBeat = true
    · rw [if_pos hb, List.map_cons, List.pairwise_cons]
      constructor
      · intro u hu
        rw [detect_snd_time]
        have hT' : t ≤ (detect s f t).1.lastBeatTime := by
          rw [detect_lastBeatTime, if_pos hb]
        have := beats_after rest (detect s f t).1 t hT' hts u hu
        rwa [detect_fst_options] at this
      · have h2 := ih (detect s f t).1 hrest
        rwa [detect_fst_options] at h2
    · rw [if_neg hb]
      have h2 := ih (detect s f t).1 hrest
      rwa [detect_fst_options] at h2

/-- C5: for one BeatDetector, detect on a frame reports a beat exactly when
the energy delta exceeds the threshold and more than minTimeBetweenBeats
elapsed since the recorded last-beat timestamp; consequently, over any call
sequence at non-decreasing times, any two calls that both report a beat are
separated by more than minTimeBetweenBeats. -/
theorem beatDetector_refractory (s : BeatDetectorState)
    (inputs : List (Option AudioData × ℚ)) :
    (∀ (a : AudioData) (now : ℚ),
      ((detect s (some a) now).2.isBeat = true ↔
        s.options.threshold < (detect s (some a) now).2.delta ∧
        s.options.minTimeBetweenBeats < now - s.lastBeatTime)) ∧
    (List.Pairwise (fun a b => a ≤ b) (inputs.map Prod.snd) →
      List.Pairwise (fun t1 t2 => s.options.minTimeBetweenBeats < t2 - t1)
        (reportedBeatTimes (detectTrace s inputs))) :=
  ⟨fun a now => detect_isBeat_iff s a now, fun h => pairwise_beats inputs s h⟩

lemma detect_stepW1 :
    detect (initBeatDetector defaultBeatOptions) (some witnessFrame) 1000 =
      (⟨defaultBeatOptions, 1/2150, 1000, List.replicate 42 0 ++ [1]⟩,
       ⟨true, 1, 1/2150, 1 - 1/2150, 1000⟩) := by
  have h1 : detectLowIndex defaultBeatOptions 4 (480 / 2) = 1 := by
    norm_num [detectLowIndex, defaultBeatOptions]
  have h2 : detectHighIndex defaultBeatOptions 4 (480 / 2) = 2 := by
    norm_num [detectHighIndex, defaultBeatOptions]
  have h3 : detectEnergy [0, 255, 255, 0] 1 2 = 1 := by
    norm_num [detectEnergy, detectRawEnergy,
      show intRange 1 2 = [1, 2] from rfl,
      show jsGetD [0, 255, 255, 0] 1 = 255 from rfl,
      show jsGetD [0, 255, 255, 0] 2 = 255 from rfl]
  simp only [detect, witnessFrame, initBeatDetector, h1, h2, h3, historySize]
  norm_num [show List.replicate 43 (0:ℚ) = 0 :: List.replicate 42 0 from rfl,
    List.sum_append, List.sum_replicate, defaultBeatOptions,
    Bool.and_eq_true, decide_eq_true_eq]

lemma detect_stepW2 :
    detect (⟨defaultBeatOptions, 1/2150, 1000, List.replicate 42 0 ++ [1]⟩ :
        BeatDetectorState) (some witnessFrame) 1400 =
      (⟨defaultBeatOptions, 149/107500, 1400, List.replicate 41 0 ++ [1, 1]⟩,
       ⟨true, 1, 149/107500, 1 - 149/107500, 1400⟩) := by
  have h1 : detectLowIndex defaultBeatOptions 4 (480 / 2) = 1 := by
    norm_num [detectLowIndex, defaultBeatOptions]
  have h2 : detectHighIndex defaultBeatOptions 4 (480 / 2) = 2 := by
    norm_num [detectHighIndex, defaultBeatOptions]
  have h3 : detectEnergy [0, 255, 255, 0] 1 2 = 1 := by
    norm_num [detectEnergy, detectRawEnergy,
      show intRange 1 2 = [1, 2] from rfl,
      show jsGetD [0, 255, 255, 0] 1 = 255 from rfl,
      show jsGetD [0, 255, 255, 0] 2 = 255 from rfl]
  simp only [detect, witnessFrame, h1, h2, h3, historySize]
  norm_num [show List.replicate 42 (0:ℚ) = 0 :: List.replicate 41 0 from rfl,
    List.sum_append, List.sum_replicate, defaultBeatOptions,
    Bool.and_eq_true, decide_eq_true_eq, List.cons_append]

/-- C5 witness: a fresh detector with default options, fed two identical
spike frames at t = 1000 and t = 1400 ms, reports both as beats, and the
reported beat times satisfy the refractory separation. -/
theorem beatDetector_refractory_witness :
    reportedBeatTimes (detectTrace (initBeatDetector defaultBeatOptions) witnessInputs) =
      [1000, 1400] ∧
    List.Pairwise
      (fun t1 t2 =>
        (initBeatDetector defaultBeatOptions).options.minTimeBetweenBeats < t2 - t1)
      (reportedBeatTimes (detectTrace (initBeatDetector defaultBeatOptions) witnessInputs)) := by
  have htrace : detectTrace (initBeatDetector defaultBeatOptions) witnessInputs =
      [⟨true, 1, 1/2150, 1 - 1/2150, 1000⟩,
       ⟨true, 1, 149/107500, 1 - 149/107500, 1400⟩] := by
    rw [witnessInputs]
    simp only [detectTrace, detect_stepW1, detect_stepW2]
  constructor
  · rw [htrace]
    rfl
  · exact (beatDetector_refractory (initBeatDetector defaultBeatOptions) witnessInputs).2
      (by simp [witnessInputs]; norm_num)

lemma mem_intRange (lo hi i : ℤ) : i ∈ intRange lo hi ↔ lo ≤ i ∧ i ≤ hi := by
  unfold intRange
  simp only [List.mem_map, List.mem_range]
  constructor
  · rintro ⟨k, hk, rfl⟩
    omega
  · rintro ⟨h1, h2⟩
    refine ⟨(i - lo).toNat, ?_, ?_⟩
    · omega
    · omega

/-- C10: the beat-detection energy loop reads frequencyData at exactly the
indices of the inclusive range [floor(low*bufferLength/nyquist),
ceil(high*bufferLength/nyquist)], with no clamping to the array length; for a
nonnegative low bound the accesses are all within [0, bufferLength-1] exactly
when highIndex <= bufferLength - 1, and whenever frequencyRange.high reaches
the nyquist frequency the loop's top index is at least bufferLength — past
the end of a bufferLength-sized magnitude array. -/
theorem detect_index_range_bounds (opts : BeatDetectorOptions) (bufferLength : ℕ)
    (nyquist : ℚ) (hlow : 0 ≤ opts.frequencyRangeLow)
    (hlh : opts.frequencyRangeLow ≤ opts.frequencyRangeHigh)
    (hnyq : 0 < nyquist) (_hbl : 1 ≤ bufferLength) :
    (∀ i : ℤ, i ∈ intRange (detectLowIndex opts bufferLength nyquist)
        (detectHighIndex opts bufferLength nyquist) ↔
      detectLowIndex opts bufferLength nyquist ≤ i ∧
        i ≤ detectHighIndex opts bufferLength nyquist) ∧
    0 ≤ detectLowIndex opts bufferLength nyquist ∧
    ((∀ i ∈ intRange (detectLowIndex opts bufferLength nyquist)
        (detectHighIndex opts bufferLength nyquist),
        0 ≤ i ∧ i < (bufferLength : ℤ)) ↔
      detectHighIndex opts bufferLength nyquist ≤ (bufferLength : ℤ) - 1) ∧
    (nyquist ≤ opts.frequencyRangeHigh →
      (bufferLength : ℤ) ≤ detectHighIndex opts bufferLength nyquist) := by
  have hlo0 : 0 ≤ detectLowIndex opts bufferLength nyquist := by
    rw [detectLowIndex]
    refine Int.le_floor.mpr ?_
    push_cast
    exact div_nonneg (mul_nonneg hlow (Nat.cast_nonneg _)) (le_of_lt hnyq)
  have hlohi : detectLowIndex opts bufferLength nyquist ≤
      detectHighIndex opts bufferLength nyquist := by
    rw [detectLowIndex, detectHighIndex]
    calc ⌊opts.frequencyRangeLow * (bufferLength : ℚ) / nyquist⌋
        ≤ ⌊opts.frequencyRangeHigh * (bufferLength : ℚ) / nyquist⌋ :=
          Int.floor_le_floor ((div_le_div_iff_of_pos_right hnyq).mpr
            (mul_le_mul_of_nonneg_right hlh (Nat.cast_nonneg _)))
      _ ≤ ⌈opts.frequencyRangeHigh * (bufferLength : ℚ) / nyquist⌉ := Int.floor_le_ceil _
  refine ⟨fun i => mem_intRange _ _ i, hlo0, ?_, ?_⟩
  · constructor
    · intro h
      have hmem : detectHighIndex opts bufferLength nyquist ∈
          intRange (detectLowIndex opts bufferLength nyquist)
            (detectHighIndex opts bufferLength nyquist) :=
        (mem_intRange _ _ _).mpr ⟨hlohi, le_refl _⟩
      have := h _ hmem
      omega
    · intro hhi i hmem
      have := (mem_intRange _ _ i).mp hmem
      omega
  · intro hnh
    have hx : (bufferLength : ℚ) ≤
        opts.frequencyRangeHigh * (bufferLength : ℚ) / nyquist := by
      rw [le_div_iff₀ hnyq]
      nlinarith [mul_le_mul_of_nonneg_right hnh (Nat.cast_nonneg bufferLength :
        (0 : ℚ) ≤ (bufferLength : ℚ))]
    rw [detectHighIndex]
    have hceil := Int.le_ceil
      (opts.frequencyRangeHigh * (bufferLength : ℚ) / nyquist)
    exact_mod_cast hx.trans hceil

/-- C10 witness: with the 60-22050 Hz range, sampleRate 44100 (nyquist 22050)
and bufferLength 1024, the loop's top index reaches 1024, one past the last
valid index 1023. -/
theorem detect_index_range_witness :
    (1024 : ℤ) ≤ detectHighIndex ⟨3/20, 49/50, 250, 60, 22050⟩ 1024 22050 :=
  (detect_index_range_bounds ⟨3/20, 49/50, 250, 60, 22050⟩ 1024 22050 (by norm_num)
    (by norm_num) (by norm_num) (by norm_num)).2.2.2 (by norm_num)

/-- C7 witness: the amended bound and exactness facts at concrete inputs. -/
theorem extractBands_inbounds_witness :
    (0 ≤ extractBandIndex 60 44100 1024 ∧ extractBandIndex 60 44100 1024 ≤ (1024 : ℤ) - 1) ∧
    extractFrequencyBands [7, 8, 9, 10] [60] 44100 1024 = [jsGetD [7, 8, 9, 10] 3] :=
  ⟨(extractBands_inbounds_nonneg [60] 44100 1024 (by norm_num) (by norm_num)
      (by norm_num)).1 60 (by norm_num),
   (extractBands_inbounds_nonneg [60] 44100 1024 (by norm_num) (by norm_num)
      (by norm_num)).2.2 [7, 8, 9, 10]⟩

end Visualizer
